import Mathlib

/-!
Verification of the command registration and dispatch engine of
`src/src/azure/cli/commands/__init__.py`, as a shallow embedding in Lean 4.

The embedding models:
* Python dicts as insertion-ordered association lists (`dictSet`, `dictGet`),
  matching CPython's semantics where assignment to an existing key keeps its
  position and assignment to a new key appends it;
* `LongRunningOperation.__call__` as a pure function from a poller to the
  text written to the progress stream together with the returned value or
  the propagated fault (`progress_file` is `sys.stderr` by default, a truthy
  object, so the `if self.progress_file:` guards are taken; wall-clock
  sleeping is not observable in the output and is not modelled);
* the `CommandTable` defaultdict and its `command` / `description` / `help` /
  `option` decorator factories;
* `INSTALLED_COMMAND_MODULES` (package discovery by the `azure-cli-` key
  convention, using `str.replace` semantics);
* `_get_command_table` / `get_command_table`, with `import_module` modelled
  as an environment mapping module names to an import outcome, and Python
  exceptions modelled by an explicit result type distinguishing
  `ImportError` (the only class caught by `get_command_table`) from every
  other exception.
-/

/-- A Python dict with string-like keys: an insertion-ordered association
list with unique keys.  `dictSet d k v` models `d[k] = v`: an existing key
keeps its position and gets the new value; a fresh key is appended. -/
def dictSet {κ α : Type} [DecidableEq κ] (d : List (κ × α)) (k : κ) (v : α) :
    List (κ × α) :=
  match d with
  | [] => [(k, v)]
  | p :: rest => if p.1 = k then (k, v) :: rest else p :: dictSet rest k v

/-- `dictGet d k` models `d[k]` / `d.get(k)`: the value at the first (and,
for dicts built with `dictSet`, only) occurrence of `k`. -/
def dictGet {κ α : Type} [DecidableEq κ] (d : List (κ × α)) (k : κ) : Option α :=
  match d with
  | [] => none
  | p :: rest => if p.1 = k then some p.2 else dictGet rest k

/-- `dictUpdate d new` models `d.update(new)`: assign each of `new`'s items
into `d`, in `new`'s iteration order. -/
def dictUpdate {κ α : Type} [DecidableEq κ] (d new : List (κ × α)) :
    List (κ × α) :=
  new.foldl (fun acc p => dictSet acc p.1 p.2) d

/-! ## LongRunningOperation -/

/-- The configuration held by a `LongRunningOperation` instance
(`__init__`).  `poll_interval_ms` only feeds `time.sleep`, which has no
observable effect on the progress output or the returned value, so it is
carried but unused by the model of `__call__`. -/
structure LongRunningOperation where
  start_msg : String := ""
  finish_msg : String := ""
  poll_interval_ms : Nat := 1000

/-- The poller collaborator of `LongRunningOperation.__call__`:
`done()` answers `false` for the first `pendingPolls` calls and `true`
afterwards; `result()` then either returns a value or raises a fault. -/
structure Poller (ε α : Type) where
  pendingPolls : Nat
  outcome : Except ε α

/-- The polling loop of `__call__`: while `done()` is false, append one
`'.'` (no line break) to the progress stream. -/
def pollProgress (out : String) : Nat → String
  | 0 => out
  | n + 1 => pollProgress (out ++ ".") n

/-- A run of `n` progress markers. -/
def dotRun : Nat → String
  | 0 => ""
  | n + 1 => "." ++ dotRun n

/-- Model of `LongRunningOperation.__call__(poller)`: returns the full text
written to the progress stream, paired with the returned value (`Except.ok`)
or the propagated fault (`Except.error`).  The `finally:` block prints a bare
newline and then `finish_msg if succeeded else ''` followed by a newline;
`succeeded` is `true` exactly when `poller.result()` did not fault. -/
def LongRunningOperation.call {ε α : Type} (op : LongRunningOperation)
    (p : Poller ε α) : String × Except ε α :=
  let out := op.start_msg ++ "\n"
  let out := pollProgress out p.pendingPolls
  match p.outcome with
  | .ok v => (out ++ "\n" ++ (op.finish_msg ++ "\n"), .ok v)
  | .error e => (out ++ "\n" ++ ("" ++ "\n"), .error e)

theorem pollProgress_eq (n : Nat) : ∀ out : String,
    pollProgress out n = out ++ dotRun n := by
  induction n with
  | zero => intro out; simp [pollProgress, dotRun]
  | succ n ih =>
    intro out
    simp only [pollProgress, dotRun, ih]
    rw [String.append_assoc]

theorem dotRun_eq_replicate (n : Nat) : dotRun n = ⟨List.replicate n '.'⟩ := by
  induction n with
  | zero => rfl
  | succ n ih =>
    show "." ++ dotRun n = _
    rw [ih]
    rfl

/-- C3: For every poller that resolves successfully after N >= 0 polls with
`done() == false`, the monitor writes exactly `start_msg + '\n'`, then N
progress-marker dots with no line break, then `'\n' + finish_msg + '\n'`,
and returns the poller's `result()` value to the caller. -/
theorem lro_success_output {ε α : Type} (op : LongRunningOperation)
    (p : Poller ε α) (v : α) (h : p.outcome = .ok v) :
    op.call p =
      (op.start_msg ++ "\n" ++ (⟨List.replicate p.pendingPolls '.'⟩ : String)
        ++ "\n" ++ op.finish_msg ++ "\n", .ok v) := by
  simp only [LongRunningOperation.call, h, pollProgress_eq, dotRun_eq_replicate]
  simp [String.append_assoc]

theorem lro_success_output_witness :
    (Poller.mk 2 (.ok 7) : Poller String Nat).outcome = .ok 7 ∧
    (LongRunningOperation.mk "start" "done" 1000).call
        (Poller.mk 2 (.ok 7) : Poller String Nat) =
      ("start" ++ "\n" ++ (⟨List.replicate 2 '.'⟩ : String) ++ "\n"
        ++ "done" ++ "\n", .ok 7) :=
  ⟨rfl, lro_success_output (LongRunningOperation.mk "start" "done" 1000)
    (Poller.mk 2 (.ok 7)) 7 rfl⟩

/-- C4: For every poller whose `result()` raises a fault after N >= 0 polls
with `done() == false`, the finalizer runs before the fault propagates: the
progress stream receives exactly `start_msg + '\n'`, then N dots, then
`'\n' + '\n'` (a line break closing the dots, then an empty line instead of
`finish_msg`), and the fault is re-raised to the caller. -/
theorem lro_fault_output {ε α : Type} (op : LongRunningOperation)
    (p : Poller ε α) (e : ε) (h : p.outcome = .error e) :
    op.call p =
      (op.start_msg ++ "\n" ++ (⟨List.replicate p.pendingPolls '.'⟩ : String)
        ++ "\n" ++ "\n", .error e) := by
  simp only [LongRunningOperation.call, h, pollProgress_eq, dotRun_eq_replicate]
  simp [String.append_assoc]

theorem lro_fault_output_witness :
    (Poller.mk 3 (.error "boom") : Poller String Nat).outcome = .error "boom" ∧
    (LongRunningOperation.mk "start" "done" 1000).call
        (Poller.mk 3 (.error "boom") : Poller String Nat) =
      ("start" ++ "\n" ++ (⟨List.replicate 3 '.'⟩ : String) ++ "\n" ++ "\n",
        .error "boom") :=
  ⟨rfl, lro_fault_output (LongRunningOperation.mk "start" "done" 1000)
    (Poller.mk 3 (.error "boom")) "boom" rfl⟩

/-! ## Module discovery: INSTALLED_COMMAND_MODULES -/

/-- The fixed package-key convention: command modules are the installed
distributions whose key starts with these characters (`'azure-cli-'`). -/
def moduleKeyStart : List Char := "azure-cli-".data

/-- Fuel-indexed model of CPython `str.replace(pat, '')` on character
lists: scan left to right; at each position, if `pat` (non-empty) matches,
consume it and emit nothing, else emit the current character; the fuel is
an upper bound on the string length so the recursion is structural. -/
def removeAllF (pat : List Char) : Nat → List Char → List Char
  | _, [] => []
  | 0, s => s
  | fuel + 1, c :: rest =>
    if pat ≠ [] ∧ pat.isPrefixOf (c :: rest) then
      removeAllF pat fuel (List.drop pat.length (c :: rest))
    else
      c :: removeAllF pat fuel rest

/-- `removeAll pat s` models `s.replace(pat, '')`: every non-overlapping
occurrence of `pat` is removed, scanning left to right. -/
def removeAll (pat s : List Char) : List Char :=
  removeAllF pat s.length s

/-- Whether `pat` occurs as a contiguous subsequence of `s`
(Python `pat in s`). -/
def containsSub (pat : List Char) : List Char → Bool
  | [] => pat.isPrefixOf []
  | c :: rest => pat.isPrefixOf (c :: rest) || containsSub pat rest

/-- Model of the `INSTALLED_COMMAND_MODULES` comprehension: for each
installed distribution key, keep it when it starts with `'azure-cli-'` and
yield `key.replace('azure-cli-', '')`. -/
def INSTALLED_COMMAND_MODULES (dists : List (List Char)) : List (List Char) :=
  dists.filterMap (fun key =>
    if moduleKeyStart.isPrefixOf key then some (removeAll moduleKeyStart key)
    else none)

theorem removeAllF_congr (pat : List Char) :
    ∀ (f₁ : Nat) (s : List Char) (f₂ : Nat), s.length ≤ f₁ → s.length ≤ f₂ →
      removeAllF pat f₁ s = removeAllF pat f₂ s := by
  intro f₁
  induction f₁ with
  | zero =>
    intro s f₂ h₁ _
    have : s = [] := List.eq_nil_of_length_eq_zero (Nat.le_zero.mp h₁)
    subst this
    cases f₂ <;> rfl
  | succ f ih =>
    intro s f₂ h₁ h₂
    cases s with
    | nil => cases f₂ <;> rfl
    | cons c rest =>
      cases f₂ with
      | zero => simp at h₂
      | succ f₂ =>
        simp only [removeAllF]
        by_cases hc : pat ≠ [] ∧ pat.isPrefixOf (c :: rest)
        · rw [if_pos hc, if_pos hc]
          have hp : 0 < pat.length := List.length_pos.mpr hc.1
          apply ih
          · simp only [List.length_drop, List.length_cons]
            simp only [List.length_cons] at h₁
            omega
          · simp only [List.length_drop, List.length_cons]
            simp only [List.length_cons] at h₂
            omega
        · rw [if_neg hc, if_neg hc]
          have := ih rest f₂ (by simp only [List.length_cons] at h₁; omega)
            (by simp only [List.length_cons] at h₂; omega)
          rw [this]

theorem removeAll_append_self (pat rest : List Char) (h : pat ≠ []) :
    removeAll pat (pat ++ rest) = removeAll pat rest := by
  cases pat with
  | nil => exact absurd rfl h
  | cons p ps =>
    show removeAllF (p :: ps) ((p :: ps) ++ rest).length ((p :: ps) ++ rest) = _
    have hlen : ((p :: ps) ++ rest).length = (ps ++ rest).length + 1 := by
      simp [List.length_append, List.length_cons]
    rw [hlen]
    show removeAllF (p :: ps) ((ps ++ rest).length + 1) (p :: (ps ++ rest)) = _
    rw [removeAllF, if_pos]
    · have hdrop : List.drop (p :: ps).length (p :: (ps ++ rest)) = rest := by
        simp only [List.length_cons, List.drop_succ_cons]
        exact List.drop_left ps rest
      rw [hdrop]
      exact removeAllF_congr (p :: ps) (ps ++ rest).length rest rest.length
        (by simp [List.length_append]) (Nat.le_refl _)
    · constructor
      · exact List.cons_ne_nil p ps
      · rw [List.isPrefixOf_iff_prefix]
        exact List.prefix_append (p :: ps) rest

theorem removeAll_of_not_contains (pat : List Char) :
    ∀ s : List Char, containsSub pat s = false → removeAll pat s = s := by
  have key : ∀ (s : List Char) (fuel : Nat), s.length ≤ fuel →
      containsSub pat s = false → removeAllF pat fuel s = s := by
    intro s
    induction s with
    | nil => intro fuel _ _; cases fuel <;> rfl
    | cons c rest ih =>
      intro fuel hf hc
      cases fuel with
      | zero => simp at hf
      | succ f =>
        simp only [containsSub, Bool.or_eq_false_iff] at hc
        rw [removeAllF, if_neg]
        · rw [ih f (by simp only [List.length_cons] at hf; omega) hc.2]
        · intro hcontra
          rw [hc.1] at hcontra
          exact absurd hcontra.2 (by simp)
  intro s h
  exact key s s.length (Nat.le_refl _) h

/-- C9 counterexample: for the installed key `'azure-cli-azure-cli-x'`,
discovery yields `'x'` (every occurrence of `'azure-cli-'` is removed by
`str.replace`), not the leading-prefix-stripped suffix `'azure-cli-x'`. -/
theorem discovery_counterexample :
    INSTALLED_COMMAND_MODULES ["azure-cli-azure-cli-x".data] = ["x".data] ∧
    ["x".data] ≠
      [List.drop moduleKeyStart.length "azure-cli-azure-cli-x".data] := by
  constructor
  · decide
  · decide

/-- C9 amended: discovery yields, for each installed key starting with
`'azure-cli-'`, the key with every occurrence of `'azure-cli-'` removed
(so, for keys in which the convention string occurs only as the leading
prefix, exactly the leading-prefix-stripped suffix), and keys not starting
with `'azure-cli-'` yield nothing. -/
theorem discovery_amended (rest : List Char) (ds : List (List Char))
    (h : containsSub moduleKeyStart rest = false) :
    INSTALLED_COMMAND_MODULES ((moduleKeyStart ++ rest) :: ds) =
      rest :: INSTALLED_COMMAND_MODULES ds ∧
    ∀ key, moduleKeyStart.isPrefixOf key = false →
      INSTALLED_COMMAND_MODULES (key :: ds) = INSTALLED_COMMAND_MODULES ds := by
  constructor
  · simp only [INSTALLED_COMMAND_MODULES, List.filterMap_cons]
    have hpre : moduleKeyStart.isPrefixOf (moduleKeyStart ++ rest) = true := by
      rw [List.isPrefixOf_iff_prefix]
      exact List.prefix_append moduleKeyStart rest
    rw [hpre]
    simp only [if_true]
    rw [removeAll_append_self moduleKeyStart rest (by decide),
      removeAll_of_not_contains moduleKeyStart rest h]
  · intro key hk
    simp only [INSTALLED_COMMAND_MODULES, List.filterMap_cons, hk]
    simp

theorem discovery_amended_witness :
    containsSub moduleKeyStart "vm".data = false ∧
    (INSTALLED_COMMAND_MODULES ((moduleKeyStart ++ "vm".data) :: []) =
      "vm".data :: INSTALLED_COMMAND_MODULES [] ∧
    ∀ key, moduleKeyStart.isPrefixOf key = false →
      INSTALLED_COMMAND_MODULES (key :: []) = INSTALLED_COMMAND_MODULES []) :=
  ⟨by decide, discovery_amended "vm".data [] (by decide)⟩

/-! ## CommandTable: the decorator-built registry -/

/-- Handler identity: command tables are keyed by the handler function
object, modelled by an opaque identifier. -/
abbrev Handler := Nat

/-- A value stored in a command entry's dict: registration metadata
(strings, opaque to this core) or the `'arguments'` list of argument-spec
dicts (each spec a dict of string metadata). -/
inductive EntryVal where
  | str (s : String)
  | args (l : List (List (String × String)))
deriving DecidableEq

/-- One command entry: the Python dict
`{name, description, help_file, arguments, **kwargs}`. -/
abbrev Entry := List (String × EntryVal)

/-- A command table: the Python dict `func -> entry`. -/
abbrev Table := List (Handler × Entry)

/-- The defaultdict default factory `lambda: {'arguments': []}`. -/
def defaultEntry : Entry := [("arguments", EntryVal.args [])]

/-- `self[func]` on the `CommandTable` defaultdict: the existing entry, or
the default `{'arguments': []}` for a handler not yet registered. -/
def tableGet (t : Table) (func : Handler) : Entry :=
  (dictGet t func).getD defaultEntry

/-- `CommandTable.command(name, **kwargs)` applied to `func`:
`self[func]['name'] = name; self[func].update(kwargs); return func`. -/
def CommandTable.command (t : Table) (name : String)
    (kwargs : List (String × EntryVal)) (func : Handler) : Handler × Table :=
  (func, dictSet t func (dictUpdate (dictSet (tableGet t func) "name" (.str name)) kwargs))

/-- `CommandTable.description(description)` applied to `func`:
`self[func]['description'] = description; return func`. -/
def CommandTable.description (t : Table) (text : String) (func : Handler) :
    Handler × Table :=
  (func, dictSet t func (dictSet (tableGet t func) "description" (.str text)))

/-- `CommandTable.help(help_file)` applied to `func`:
`self[func]['help_file'] = help_file; return func`. -/
def CommandTable.help (t : Table) (file : String) (func : Handler) :
    Handler × Table :=
  (func, dictSet t func (dictSet (tableGet t func) "help_file" (.str file)))

/-- The argument spec built by `option`:
`opt = dict(kwargs); opt['name'] = name`. -/
def mkArgSpec (name : String) (kwargs : List (String × String)) :
    List (String × String) :=
  dictSet kwargs "name" name

/-- `CommandTable.option(name, **kwargs)` applied to `func`:
`self[func]['arguments'].append(opt); return func`.  The fallthrough branch
(entry's `'arguments'` not an argument list, which in Python would raise)
is reachable only if `command(**kwargs)` clobbered the `'arguments'` key;
the theorems below exclude that via `goodAnn`. -/
def CommandTable.option (t : Table) (name : String)
    (kwargs : List (String × String)) (func : Handler) : Handler × Table :=
  let e := tableGet t func
  let e' := match dictGet e "arguments" with
    | some (EntryVal.args l) =>
        dictSet e "arguments" (EntryVal.args (l ++ [mkArgSpec name kwargs]))
    | _ => e
  (func, dictSet t func e')

/-- One decorator application drawn from the `CommandTable` API. -/
inductive Ann where
  | command (name : String) (kwargs : List (String × EntryVal))
  | description (text : String)
  | help (file : String)
  | option (name : String) (kwargs : List (String × String))
deriving DecidableEq

/-- Apply one decorator to `func`, returning the decorator's return value
(the handler) and the mutated table. -/
def applyAnn (t : Table) (func : Handler) : Ann → Handler × Table
  | .command n kw => CommandTable.command t n kw func
  | .description d => CommandTable.description t d func
  | .help f => CommandTable.help t f func
  | .option n kw => CommandTable.option t n kw func

/-- Apply a stack of decorators to `func`, left to right (the first list
element is the decorator applied first). -/
def applyAnns (t : Table) (func : Handler) (l : List Ann) : Table :=
  l.foldl (fun acc a => (applyAnn acc func a).2) t

/-- The effect of one decorator on the decorated handler's own entry. -/
def entryStep (e : Entry) : Ann → Entry
  | .command n kw => dictUpdate (dictSet e "name" (.str n)) kw
  | .description d => dictSet e "description" (.str d)
  | .help f => dictSet e "help_file" (.str f)
  | .option n kw =>
      match dictGet e "arguments" with
      | some (EntryVal.args l) =>
          dictSet e "arguments" (EntryVal.args (l ++ [mkArgSpec n kw]))
      | _ => e

/-- The dict keys the decorators manage themselves; `command`'s extra
keyword arguments landing on one of these would overwrite it. -/
def reservedKeys : List String := ["name", "description", "help_file", "arguments"]

/-- A benign annotation: `command`'s extra keyword arguments stay off the
managed keys (Python callers cannot even pass `name` twice, and clobbering
`arguments` would make a later `option` call raise). -/
def goodAnn : Ann → Bool
  | .command _ kw => kw.all (fun q => !(reservedKeys.contains q.1))
  | _ => true

/-- The command registrations in a decorator stack. -/
def cmdOf : Ann → Option (String × List (String × EntryVal))
  | .command n kw => some (n, kw)
  | _ => none

/-- The description registrations in a decorator stack. -/
def descOf : Ann → Option String
  | .description d => some d
  | _ => none

/-- The help registrations in a decorator stack. -/
def helpOf : Ann → Option String
  | .help f => some f
  | _ => none

/-- The option registrations in a decorator stack. -/
def optOf : Ann → Option (String × List (String × String))
  | .option n kw => some (n, kw)
  | _ => none

/-! ### Dict lemmas -/

theorem dictGet_dictSet_self {κ α : Type} [DecidableEq κ]
    (d : List (κ × α)) (k : κ) (v : α) : dictGet (dictSet d k v) k = some v := by
  induction d with
  | nil => simp [dictSet, dictGet]
  | cons p d ih =>
    by_cases hp : p.1 = k
    · simp [dictSet, dictGet, hp]
    · simp [dictSet, dictGet, hp, ih]

theorem dictGet_dictSet_ne {κ α : Type} [DecidableEq κ]
    (d : List (κ × α)) (k k' : κ) (v : α) (h : k' ≠ k) :
    dictGet (dictSet d k v) k' = dictGet d k' := by
  induction d with
  | nil => simp [dictSet, dictGet, h, h.symm]
  | cons p d ih =>
    by_cases hp : p.1 = k
    · simp [dictSet, dictGet, hp, h, h.symm, ih]
    · by_cases hpk' : p.1 = k'
      · simp [dictSet, dictGet, hp, hpk', h, h.symm]
      · simp [dictSet, dictGet, hp, hpk', h, h.symm, ih]

/-- The last value `d.update(kw)` writes at key `k`, if any. -/
def kwWrite {κ α : Type} [DecidableEq κ] (kw : List (κ × α)) (k : κ) : Option α :=
  kw.foldl (fun acc q => if q.1 = k then some q.2 else acc) none

theorem kwWrite_foldl {κ α : Type} [DecidableEq κ] (kw : List (κ × α)) (k : κ) :
    ∀ a : Option α,
      kw.foldl (fun acc q => if q.1 = k then some q.2 else acc) a =
        (kwWrite kw k).elim a some := by
  induction kw with
  | nil => intro a; rfl
  | cons q kw ih =>
    intro a
    show kw.foldl _ (if q.1 = k then some q.2 else a) =
      (kw.foldl _ (if q.1 = k then some q.2 else none)).elim a some
    rw [ih, ih]
    by_cases hq : q.1 = k
    · rw [if_pos hq, if_pos hq]
      cases kwWrite kw k <;> simp
    · rw [if_neg hq, if_neg hq]
      cases kwWrite kw k <;> simp

theorem kwWrite_eq_none {κ α : Type} [DecidableEq κ] (kw : List (κ × α)) (k : κ)
    (h : ∀ q ∈ kw, q.1 ≠ k) : kwWrite kw k = none := by
  induction kw with
  | nil => rfl
  | cons q kw ih =>
    simp only [kwWrite, List.foldl_cons, if_neg (h q (List.mem_cons_self q kw))]
    exact ih (fun q hq => h q (List.mem_cons_of_mem _ hq))

theorem dictGet_dictUpdate {κ α : Type} [DecidableEq κ] (kw : List (κ × α)) (k : κ) :
    ∀ d : List (κ × α),
      dictGet (dictUpdate d kw) k = (kwWrite kw k).elim (dictGet d k) some := by
  induction kw with
  | nil => intro d; rfl
  | cons q kw ih =>
    intro d
    show dictGet (dictUpdate (dictSet d q.1 q.2) kw) k = _
    rw [ih]
    by_cases hq : q.1 = k
    · subst hq
      rw [dictGet_dictSet_self]
      have hkw : kwWrite (q :: kw) q.1 = (kwWrite kw q.1).elim (some q.2) some := by
        show kw.foldl _ (if q.1 = q.1 then some q.2 else none) = _
        rw [if_pos rfl]
        exact kwWrite_foldl kw q.1 (some q.2)
      rw [hkw]
      cases kwWrite kw q.1 <;> simp
    · rw [dictGet_dictSet_ne d q.1 k q.2 (fun hh => hq hh.symm)]
      have hkw : kwWrite (q :: kw) k = kwWrite kw k := by
        show kw.foldl _ (if q.1 = k then some q.2 else none) = _
        rw [if_neg hq]
        rfl
      rw [hkw]

/-- The value the last registration in a decorator stack writes, as selected
by `g` (e.g. the last `command`'s data). -/
def lastReg {β : Type} (g : Ann → Option β) (l : List Ann) : Option β :=
  l.foldl (fun acc a => (g a).elim acc some) none

theorem lastReg_foldl {β : Type} (g : Ann → Option β) (l : List Ann) :
    ∀ acc : Option β,
      l.foldl (fun acc a => (g a).elim acc some) acc = (lastReg g l).elim acc some := by
  induction l with
  | nil => intro acc; rfl
  | cons a l ih =>
    intro acc
    show l.foldl _ ((g a).elim acc some) = (l.foldl _ ((g a).elim none some)).elim acc some
    rw [ih, ih]
    cases g a
    · cases lastReg g l <;> simp
    · cases lastReg g l <;> simp

theorem lastReg_cons {β : Type} (g : Ann → Option β) (a : Ann) (l : List Ann) :
    lastReg g (a :: l) = (lastReg g l).elim ((g a).elim none some) some := by
  show l.foldl _ ((g a).elim none some) = _
  exact lastReg_foldl g l ((g a).elim none some)

theorem lastReg_eq_getLast {β : Type} (g : Ann → Option β) (l : List Ann) :
    lastReg g l = (l.filterMap g).getLast? := by
  induction l with
  | nil => rfl
  | cons a l ih =>
    rw [lastReg_cons, ih]
    cases hga : g a with
    | none =>
      simp only [List.filterMap_cons, hga]
      cases (l.filterMap g).getLast? <;> rfl
    | some b =>
      simp only [List.filterMap_cons, hga, List.getLast?_cons]
      cases (l.filterMap g).getLast? <;> rfl

theorem lastReg_map {β γ : Type} (g : Ann → Option β) (f : β → γ) (l : List Ann) :
    lastReg (fun a => (g a).map f) l = (lastReg g l).map f := by
  rw [lastReg_eq_getLast, lastReg_eq_getLast]
  have hfm : l.filterMap (fun a => (g a).map f) = (l.filterMap g).map f := by
    induction l with
    | nil => rfl
    | cons a l ih =>
      cases hga : g a <;> simp [List.filterMap_cons, hga, ih]
  rw [hfm]
  cases h : (l.filterMap g).getLast? with
  | none => rw [List.getLast?_eq_none_iff.mp h]; rfl
  | some v =>
    rcases List.getLast?_eq_some_iff.mp h with ⟨l', hl⟩
    rw [hl]
    simp [List.getLast?_concat]

theorem applyAnn_fst (t : Table) (func : Handler) (a : Ann) :
    (applyAnn t func a).1 = func := by
  cases a <;> rfl

theorem applyAnn_snd (t : Table) (func : Handler) (a : Ann) :
    (applyAnn t func a).2 = dictSet t func (entryStep (tableGet t func) a) := by
  cases a <;> rfl

theorem tableGet_dictSet_self (t : Table) (f : Handler) (e : Entry) :
    tableGet (dictSet t f e) f = e := by
  simp [tableGet, dictGet_dictSet_self]

theorem entry_applyAnns (func : Handler) (l : List Ann) :
    ∀ t : Table,
      tableGet (applyAnns t func l) func = l.foldl entryStep (tableGet t func) := by
  induction l with
  | nil => intro t; rfl
  | cons a l ih =>
    intro t
    show tableGet (applyAnns (applyAnn t func a).2 func l) func = _
    rw [ih, applyAnn_snd, tableGet_dictSet_self]
    rfl

/-- What one decorator writes at the managed scalar key `k` (`"name"`,
`"description"` or `"help_file"`). -/
def scalarWrite (k : String) : Ann → Option EntryVal
  | .command n _ => if k = "name" then some (.str n) else none
  | .description d => if k = "description" then some (.str d) else none
  | .help f => if k = "help_file" then some (.str f) else none
  | .option _ _ => none

/-- What one decorator writes at a non-managed key `k`: only `command`'s
extra keyword arguments can reach such a key. -/
def cmdKwWrite (k : String) : Ann → Option EntryVal
  | .command _ kw => kwWrite kw k
  | _ => none

theorem dictGet_entryStep_scalar (e : Entry) (a : Ann) (hg : goodAnn a = true)
    (k : String) (hk : k ∈ reservedKeys) (hka : k ≠ "arguments") :
    dictGet (entryStep e a) k = (scalarWrite k a).elim (dictGet e k) some := by
  cases a with
  | command n kw =>
    show dictGet (dictUpdate (dictSet e "name" (.str n)) kw) k = _
    rw [dictGet_dictUpdate]
    have hnone : kwWrite kw k = none := by
      apply kwWrite_eq_none
      intro q hq hqk
      have hall := List.all_eq_true.mp hg q hq
      rw [hqk] at hall
      simp only [Bool.not_eq_true'] at hall
      have hmem : reservedKeys.contains k = true := List.elem_eq_true_of_mem hk
      rw [hmem] at hall
      simp at hall
    rw [hnone]
    by_cases hkn : k = "name"
    · subst hkn
      rw [dictGet_dictSet_self]
      rfl
    · rw [dictGet_dictSet_ne e "name" k (.str n) hkn]
      simp [scalarWrite, hkn]
  | description d =>
    show dictGet (dictSet e "description" (.str d)) k = _
    by_cases hkd : k = "description"
    · subst hkd; rw [dictGet_dictSet_self]; rfl
    · rw [dictGet_dictSet_ne e "description" k (.str d) hkd]
      simp [scalarWrite, hkd]
  | help f =>
    show dictGet (dictSet e "help_file" (.str f)) k = _
    by_cases hkh : k = "help_file"
    · subst hkh; rw [dictGet_dictSet_self]; rfl
    · rw [dictGet_dictSet_ne e "help_file" k (.str f) hkh]
      simp [scalarWrite, hkh]
  | option n kw =>
    show dictGet (match dictGet e "arguments" with
      | some (EntryVal.args l) =>
          dictSet e "arguments" (EntryVal.args (l ++ [mkArgSpec n kw]))
      | _ => e) k = _
    cases harg : dictGet e "arguments" with
    | none => simp [scalarWrite]
    | some v =>
      cases v with
      | str s => simp [scalarWrite]
      | args l =>
        simp only [scalarWrite, Option.elim]
        rw [dictGet_dictSet_ne e "arguments" k _ hka]

theorem dictGet_entryStep_extra (e : Entry) (a : Ann) (k : String)
    (hk : k ∉ reservedKeys) :
    dictGet (entryStep e a) k = (cmdKwWrite k a).elim (dictGet e k) some := by
  have hkn : k ≠ "name" := fun h => hk (h ▸ (by simp [reservedKeys]))
  have hkd : k ≠ "description" := fun h => hk (h ▸ (by simp [reservedKeys]))
  have hkh : k ≠ "help_file" := fun h => hk (h ▸ (by simp [reservedKeys]))
  have hka : k ≠ "arguments" := fun h => hk (h ▸ (by simp [reservedKeys]))
  cases a with
  | command n kw =>
    show dictGet (dictUpdate (dictSet e "name" (.str n)) kw) k = _
    rw [dictGet_dictUpdate, dictGet_dictSet_ne e "name" k (.str n) hkn]
    rfl
  | description d =>
    show dictGet (dictSet e "description" (.str d)) k = _
    rw [dictGet_dictSet_ne e "description" k (.str d) hkd]
    rfl
  | help f =>
    show dictGet (dictSet e "help_file" (.str f)) k = _
    rw [dictGet_dictSet_ne e "help_file" k (.str f) hkh]
    rfl
  | option n kw =>
    show dictGet (match dictGet e "arguments" with
      | some (EntryVal.args l) =>
          dictSet e "arguments" (EntryVal.args (l ++ [mkArgSpec n kw]))
      | _ => e) k = _
    cases harg : dictGet e "arguments" with
    | none => rfl
    | some v =>
      cases v with
      | str s => rfl
      | args l =>
        simp only [cmdKwWrite, Option.elim]
        rw [dictGet_dictSet_ne e "arguments" k _ hka]

theorem foldl_entryStep_key (k : String) (w : Ann → Option EntryVal)
    (l : List Ann)
    (hw : ∀ (e : Entry) (a : Ann), a ∈ l →
      dictGet (entryStep e a) k = (w a).elim (dictGet e k) some) :
    ∀ e : Entry,
      dictGet (l.foldl entryStep e) k = (lastReg w l).elim (dictGet e k) some := by
  induction l with
  | nil => intro e; rfl
  | cons a l ih =>
    intro e
    show dictGet (l.foldl entryStep (entryStep e a)) k = _
    rw [ih (fun e' a' ha' => hw e' a' (List.mem_cons_of_mem a ha')),
      hw e a (List.mem_cons_self a l), lastReg_cons]
    cases lastReg w l <;> cases w a <;> simp

theorem foldl_entryStep_args (l : List Ann) (hg : ∀ a ∈ l, goodAnn a = true) :
    ∀ (e : Entry) (args0 : List (List (String × String))),
      dictGet e "arguments" = some (.args args0) →
      dictGet (l.foldl entryStep e) "arguments" =
        some (.args (args0 ++ (l.filterMap optOf).map (fun o => mkArgSpec o.1 o.2))) := by
  induction l with
  | nil =>
    intro e args0 h0
    simpa using h0
  | cons a l ih =>
    have hgl : ∀ a ∈ l, goodAnn a = true :=
      fun a' ha' => hg a' (List.mem_cons_of_mem a ha')
    intro e args0 h0
    show dictGet (l.foldl entryStep (entryStep e a)) "arguments" = _
    cases a with
    | command n kw =>
      have hstep : dictGet (entryStep e (.command n kw)) "arguments" =
          some (.args args0) := by
        show dictGet (dictUpdate (dictSet e "name" (.str n)) kw) "arguments" = _
        rw [dictGet_dictUpdate]
        have hnone : kwWrite kw "arguments" = none := by
          apply kwWrite_eq_none
          intro q hq hqk
          have hall := List.all_eq_true.mp (hg _ (List.mem_cons_self _ l)) q hq
          rw [hqk] at hall
          simp [reservedKeys] at hall
        rw [hnone,
          dictGet_dictSet_ne e "name" "arguments" (.str n) (by decide)]
        exact h0
      rw [ih hgl _ args0 hstep]
      simp [List.filterMap_cons, optOf]
    | description d =>
      have hstep : dictGet (entryStep e (.description d)) "arguments" =
          some (.args args0) := by
        show dictGet (dictSet e "description" (.str d)) "arguments" = _
        rw [dictGet_dictSet_ne e "description" "arguments" (.str d) (by decide)]
        exact h0
      rw [ih hgl _ args0 hstep]
      simp [List.filterMap_cons, optOf]
    | help f =>
      have hstep : dictGet (entryStep e (.help f)) "arguments" =
          some (.args args0) := by
        show dictGet (dictSet e "help_file" (.str f)) "arguments" = _
        rw [dictGet_dictSet_ne e "help_file" "arguments" (.str f) (by decide)]
        exact h0
      rw [ih hgl _ args0 hstep]
      simp [List.filterMap_cons, optOf]
    | option n kw =>
      have hstep : dictGet (entryStep e (.option n kw)) "arguments" =
          some (.args (args0 ++ [mkArgSpec n kw])) := by
        show dictGet (match dictGet e "arguments" with
          | some (EntryVal.args l) =>
              dictSet e "arguments" (EntryVal.args (l ++ [mkArgSpec n kw]))
          | _ => e) "arguments" = _
        rw [h0]
        exact dictGet_dictSet_self e "arguments" _
      rw [ih hgl _ _ hstep]
      simp [List.filterMap_cons, optOf, List.append_assoc]

/-- The entry a decorator stack leaves for `func` in a fresh `CommandTable()`. -/
def finalEntry (func : Handler) (l : List Ann) : Entry :=
  tableGet (applyAnns [] func l) func

theorem scalarWrite_name :
    scalarWrite "name" = fun a => (cmdOf a).map (fun c => EntryVal.str c.1) := by
  funext a
  cases a <;> simp [scalarWrite, cmdOf]

theorem scalarWrite_description :
    scalarWrite "description" = fun a => (descOf a).map EntryVal.str := by
  funext a
  cases a <;> simp [scalarWrite, descOf]

theorem scalarWrite_help :
    scalarWrite "help_file" = fun a => (helpOf a).map EntryVal.str := by
  funext a
  cases a <;> simp [scalarWrite, helpOf]

theorem filterMap_cmdKwWrite (k : String) (l : List Ann) :
    l.filterMap (cmdKwWrite k) =
      (l.filterMap cmdOf).filterMap (fun c => kwWrite c.2 k) := by
  rw [List.filterMap_filterMap]
  congr 1
  funext a
  cases a <;> rfl

/-- C8: For every handler and every decorator stack containing one
`command`, one `description`, one `help` and any number of `option`
annotations, in any interleaving: each annotation returns the handler
unchanged; the resulting entry has all annotated fields set; the
`'arguments'` list holds exactly the `option` calls' specs in call order;
and permuting the `command`/`description`/`help` annotations among
themselves (any reordering that keeps the `option` subsequence) leaves
every final field value unchanged.  `goodAnn` keeps `command`'s extra
keyword arguments off the managed keys, where Python's `dict.update`
would otherwise overwrite them (and break a later `option` call). -/
theorem decorator_composition (func : Handler) (l₁ l₂ : List Ann)
    (n : String) (kw : List (String × EntryVal)) (de hf : String)
    (os : List (String × List (String × String)))
    (hperm : l₁.Perm l₂)
    (hcmd : l₁.filterMap cmdOf = [(n, kw)])
    (hdesc : l₁.filterMap descOf = [de])
    (hhelp : l₁.filterMap helpOf = [hf])
    (hopts₁ : l₁.filterMap optOf = os)
    (hopts₂ : l₂.filterMap optOf = os)
    (hgood : ∀ a ∈ l₁, goodAnn a = true) :
    (∀ (t : Table) (a : Ann), (applyAnn t func a).1 = func) ∧
    dictGet (finalEntry func l₁) "name" = some (.str n) ∧
    dictGet (finalEntry func l₁) "description" = some (.str de) ∧
    dictGet (finalEntry func l₁) "help_file" = some (.str hf) ∧
    dictGet (finalEntry func l₁) "arguments" =
      some (.args (os.map (fun o => mkArgSpec o.1 o.2))) ∧
    (∀ k, dictGet (finalEntry func l₁) k = dictGet (finalEntry func l₂) k) := by
  have hE : ∀ l : List Ann, finalEntry func l = l.foldl entryStep defaultEntry := by
    intro l
    unfold finalEntry
    rw [entry_applyAnns]
    rfl
  have hgood₂ : ∀ a ∈ l₂, goodAnn a = true :=
    fun a ha => hgood a (hperm.mem_iff.mpr ha)
  have hcmd₂ : l₂.filterMap cmdOf = [(n, kw)] := by
    have hp := hperm.filterMap cmdOf
    rw [hcmd] at hp
    exact List.perm_singleton.mp hp.symm
  have hdesc₂ : l₂.filterMap descOf = [de] := by
    have hp := hperm.filterMap descOf
    rw [hdesc] at hp
    exact List.perm_singleton.mp hp.symm
  have hhelp₂ : l₂.filterMap helpOf = [hf] := by
    have hp := hperm.filterMap helpOf
    rw [hhelp] at hp
    exact List.perm_singleton.mp hp.symm
  have hNAME : ∀ l : List Ann, (∀ a ∈ l, goodAnn a = true) →
      l.filterMap cmdOf = [(n, kw)] →
      dictGet (l.foldl entryStep defaultEntry) "name" = some (.str n) := by
    intro l hg hc
    rw [foldl_entryStep_key "name" (scalarWrite "name") l
      (fun e a ha => dictGet_entryStep_scalar e a (hg a ha) "name"
        (by simp [reservedKeys]) (by decide))]
    rw [scalarWrite_name, lastReg_map, lastReg_eq_getLast, hc]
    rfl
  have hDESC : ∀ l : List Ann, (∀ a ∈ l, goodAnn a = true) →
      l.filterMap descOf = [de] →
      dictGet (l.foldl entryStep defaultEntry) "description" = some (.str de) := by
    intro l hg hc
    rw [foldl_entryStep_key "description" (scalarWrite "description") l
      (fun e a ha => dictGet_entryStep_scalar e a (hg a ha) "description"
        (by simp [reservedKeys]) (by decide))]
    rw [scalarWrite_description, lastReg_map, lastReg_eq_getLast, hc]
    rfl
  have hHELP : ∀ l : List Ann, (∀ a ∈ l, goodAnn a = true) →
      l.filterMap helpOf = [hf] →
      dictGet (l.foldl entryStep defaultEntry) "help_file" = some (.str hf) := by
    intro l hg hc
    rw [foldl_entryStep_key "help_file" (scalarWrite "help_file") l
      (fun e a ha => dictGet_entryStep_scalar e a (hg a ha) "help_file"
        (by simp [reservedKeys]) (by decide))]
    rw [scalarWrite_help, lastReg_map, lastReg_eq_getLast, hc]
    rfl
  have hARGS : ∀ l : List Ann, (∀ a ∈ l, goodAnn a = true) →
      dictGet (l.foldl entryStep defaultEntry) "arguments" =
        some (.args ((l.filterMap optOf).map (fun o => mkArgSpec o.1 o.2))) := by
    intro l hg
    have h0 : dictGet defaultEntry "arguments" = some (.args []) := rfl
    rw [foldl_entryStep_args l hg defaultEntry [] h0]
    simp
  refine ⟨fun t a => applyAnn_fst t func a, ?_, ?_, ?_, ?_, ?_⟩
  · rw [hE]; exact hNAME l₁ hgood hcmd
  · rw [hE]; exact hDESC l₁ hgood hdesc
  · rw [hE]; exact hHELP l₁ hgood hhelp
  · rw [hE, ← hopts₁]; exact hARGS l₁ hgood
  · intro k
    rw [hE, hE]
    by_cases hk : k ∈ reservedKeys
    · have : k = "name" ∨ k = "description" ∨ k = "help_file" ∨ k = "arguments" := by
        simpa [reservedKeys] using hk
      rcases this with rfl | rfl | rfl | rfl
      · rw [hNAME l₁ hgood hcmd, hNAME l₂ hgood₂ hcmd₂]
      · rw [hDESC l₁ hgood hdesc, hDESC l₂ hgood₂ hdesc₂]
      · rw [hHELP l₁ hgood hhelp, hHELP l₂ hgood₂ hhelp₂]
      · rw [hARGS l₁ hgood, hARGS l₂ hgood₂, hopts₁, hopts₂]
    · rw [foldl_entryStep_key k (cmdKwWrite k) l₁
        (fun e a _ => dictGet_entryStep_extra e a k hk),
        foldl_entryStep_key k (cmdKwWrite k) l₂
        (fun e a _ => dictGet_entryStep_extra e a k hk)]
      have hl : lastReg (cmdKwWrite k) l₁ = lastReg (cmdKwWrite k) l₂ := by
        rw [lastReg_eq_getLast, lastReg_eq_getLast,
          filterMap_cmdKwWrite, filterMap_cmdKwWrite, hcmd, hcmd₂]
      rw [hl]

/-- A concrete decorator stack: `command`, `description`, `help`, two
`option` calls. -/
def annsA : List Ann :=
  [.command "n v" [("x", EntryVal.str "1")], .description "D", .help "H",
    .option "--a" [("r", "y")], .option "--b" []]

/-- The same decorators in a different interleaving with the same
`option` order. -/
def annsB : List Ann :=
  [.option "--a" [("r", "y")], .help "H",
    .command "n v" [("x", EntryVal.str "1")], .description "D", .option "--b" []]

theorem decorator_composition_witness :
    annsA.Perm annsB ∧
    annsA.filterMap cmdOf = [("n v", [("x", EntryVal.str "1")])] ∧
    annsA.filterMap descOf = ["D"] ∧
    annsA.filterMap helpOf = ["H"] ∧
    annsA.filterMap optOf = [("--a", [("r", "y")]), ("--b", [])] ∧
    annsB.filterMap optOf = [("--a", [("r", "y")]), ("--b", [])] ∧
    (∀ a ∈ annsA, goodAnn a = true) ∧
    ((∀ (t : Table) (a : Ann), (applyAnn t 0 a).1 = 0) ∧
    dictGet (finalEntry 0 annsA) "name" = some (.str "n v") ∧
    dictGet (finalEntry 0 annsA) "description" = some (.str "D") ∧
    dictGet (finalEntry 0 annsA) "help_file" = some (.str "H") ∧
    dictGet (finalEntry 0 annsA) "arguments" =
      some (.args ([("--a", [("r", "y")]), ("--b", [])].map
        (fun o => mkArgSpec o.1 o.2))) ∧
    (∀ k, dictGet (finalEntry 0 annsA) k = dictGet (finalEntry 0 annsB) k)) :=
  ⟨by decide, by decide, by decide, by decide, by decide, by decide, by decide,
    decorator_composition 0 annsA annsB "n v" [("x", EntryVal.str "1")] "D" "H"
      [("--a", [("r", "y")]), ("--b", [])]
      (by decide) (by decide) (by decide) (by decide) (by decide) (by decide)
      (by decide)⟩

/-! ## Command table loader: _get_command_table / get_command_table -/

/-- The outcome of a Python expression, as `get_command_table` can observe
it: a value, an `ImportError` (the only exception class it catches), or any
other exception (carried with a description). -/
inductive PyResult (α : Type) where
  | ok (a : α)
  | importError
  | otherError (e : String)
deriving DecidableEq

/-- A successfully imported `azure.cli.command_modules.<name>` module:
it exposes a `command_table` attribute, or not (`none`, in which case
reading it raises `AttributeError`). -/
structure PyModule where
  command_table : Option Table
deriving DecidableEq

/-- Model of `_get_command_table(module_name)`:
`import_module('azure.cli.command_modules.' + module_name).command_table`.
The environment `env` models `import_module` on the name suffix: it yields
the module, raises `ImportError`, or raises some other exception. -/
def _get_command_table (env : String → PyResult PyModule)
    (module_name : String) : PyResult Table :=
  match env module_name with
  | .ok m =>
    match m.command_table with
    | some t => .ok t
    | none => .otherError "AttributeError"
  | .importError => .importError
  | .otherError e => .otherError e

/-- Lexicographic comparison on character lists: CPython's `str` ordering
by code point, as used by `sorted` on the `name` keys. -/
def charsLe : List Char → List Char → Bool
  | [], _ => true
  | _ :: _, [] => false
  | a :: as, b :: bs => if a < b then true else if a = b then charsLe as bs else false

/-- The sort key `item[1]['name']` of one table item, for items whose entry
has a string `'name'` (the guarded case); `""` is a dummy for the rest. -/
def itemName (p : Handler × Entry) : String :=
  match dictGet p.2 "name" with
  | some (.str s) => s
  | _ => ""

/-- The comparison `sorted` uses on table items: ascending by name. -/
def nameLe (p q : Handler × Entry) : Prop :=
  charsLe (itemName p).data (itemName q).data = true

instance : DecidableRel nameLe := fun p q => by
  unfold nameLe
  exact inferInstance

/-- Whether an item's entry has a string value at key `'name'`. -/
def hasStrName (p : Handler × Entry) : Bool :=
  match dictGet p.2 "name" with
  | some (.str _) => true
  | _ => false

/-- Model of
`OrderedDict(sorted(command_table.items(), key=lambda item: item[1]['name']))`:
a stable ascending sort of the items by the entry's `'name'` value.  An
entry without a string name makes the key function raise (`KeyError`, or
`TypeError` once non-string keys are compared); that error path is folded
into `otherError` here. -/
def orderedCommands (t : Table) : PyResult Table :=
  if t.all hasStrName then .ok (t.insertionSort nameLe)
  else .otherError "KeyError/TypeError"

/-- One iteration of the full-load loop:
`command_table.update(_get_command_table(mod))`, with an exception from an
earlier iteration (or from this import) aborting the loop and propagating. -/
def loadStep (env : String → PyResult PyModule) (acc : PyResult Table)
    (mod : String) : PyResult Table :=
  match acc with
  | .ok t =>
    match _get_command_table env mod with
    | .ok tm => .ok (dictUpdate t tm)
    | .importError => .importError
    | .otherError e => .otherError e
  | e => e

/-- The full-load loop: `command_table = {}` then, for each registry entry
in order, `command_table.update(_get_command_table(mod))`. -/
def fullLoad (env : String → PyResult PyModule) (registry : List String) :
    PyResult Table :=
  registry.foldl (loadStep env) (.ok [])

/-- The `if module_name:` prologue of `get_command_table`: `.ok (some t)`
when the named module resolved (`loaded = True`), `.ok none` when the full
load must run (no name, empty name, or `ImportError` caught by the
`except ImportError: pass`), and any other exception propagating. -/
def attemptNamed (env : String → PyResult PyModule)
    (module_name : Option String) : PyResult (Option Table) :=
  match module_name with
  | some m =>
    if m = "" then .ok none
    else
      match _get_command_table env m with
      | .ok t => .ok (some t)
      | .importError => .ok none
      | .otherError e => .otherError e
  | none => .ok none

/-- Model of `get_command_table(module_name=None)`: resolve the named
module if any (falling back on `ImportError`), otherwise merge every
registry module's table in order, then return the items sorted by name.
`registry` stands for the process-wide `INSTALLED_COMMAND_MODULES`. -/
def get_command_table (env : String → PyResult PyModule)
    (registry : List String) (module_name : Option String) : PyResult Table :=
  match attemptNamed env module_name with
  | .ok (some t) => orderedCommands t
  | .ok none =>
    match fullLoad env registry with
    | .ok t => orderedCommands t
    | .importError => .importError
    | .otherError e => .otherError e
  | .importError => .importError
  | .otherError e => .otherError e

theorem charsLe_total (a : List Char) :
    ∀ b : List Char, charsLe a b = true ∨ charsLe b a = true := by
  induction a with
  | nil => intro b; left; cases b <;> rfl
  | cons x xs ih =>
    intro b
    cases b with
    | nil => right; rfl
    | cons y ys =>
      by_cases hxy : x < y
      · left; simp [charsLe, hxy]
      · by_cases hyx : y < x
        · right; simp [charsLe, hyx]
        · have hxyeq : x = y := le_antisymm (le_of_not_lt hyx) (le_of_not_lt hxy)
          subst hxyeq
          rcases ih ys with h | h
          · left; simp [charsLe, lt_irrefl, h]
          · right; simp [charsLe, lt_irrefl, h]

theorem charsLe_trans (a : List Char) :
    ∀ b c : List Char, charsLe a b = true → charsLe b c = true →
      charsLe a c = true := by
  induction a with
  | nil => intro b c _ _; cases c <;> rfl
  | cons x xs ih =>
    intro b c hab hbc
    cases b with
    | nil => simp [charsLe] at hab
    | cons y ys =>
      cases c with
      | nil => simp [charsLe] at hbc
      | cons z zs =>
        by_cases h1 : x < y
        · by_cases h2 : y < z
          · simp [charsLe, lt_trans h1 h2]
          · by_cases h3 : y = z
            · subst h3; simp [charsLe, h1]
            · simp [charsLe, h2, h3] at hbc
        · by_cases h1' : x = y
          · subst h1'
            simp only [charsLe, lt_irrefl, if_neg (lt_irrefl x), if_pos rfl] at hab
            by_cases h2 : x < z
            · simp [charsLe, h2]
            · by_cases h3 : x = z
              · subst h3
                simp only [charsLe, lt_irrefl, if_neg (lt_irrefl x), if_pos rfl] at hbc ⊢
                exact ih ys zs hab hbc
              · simp [charsLe, h2, h3] at hbc
          · simp [charsLe, h1, h1'] at hab

instance : IsTotal (Handler × Entry) nameLe :=
  ⟨fun p q => charsLe_total (itemName p).data (itemName q).data⟩

instance : IsTrans (Handler × Entry) nameLe :=
  ⟨fun p q r hpq hqr =>
    charsLe_trans (itemName p).data (itemName q).data (itemName r).data hpq hqr⟩

theorem orderedCommands_ok_sorted (t t' : Table)
    (h : orderedCommands t = .ok t') : List.Sorted nameLe t' := by
  unfold orderedCommands at h
  by_cases hall : t.all hasStrName
  · rw [if_pos hall] at h
    injection h with h'
    rw [← h']
    exact List.sorted_insertionSort nameLe t
  · rw [if_neg hall] at h
    exact PyResult.noConfusion h

/-- C2: For every input (any module-name hint, any import environment and
any registry), whenever `get_command_table` returns a table, its iteration
order is ascending lexicographic order of the entries' `name` fields. -/
theorem get_command_table_sorted (env : String → PyResult PyModule)
    (registry : List String) (module_name : Option String) (t : Table)
    (h : get_command_table env registry module_name = .ok t) :
    List.Sorted nameLe t := by
  unfold get_command_table at h
  cases hatt : attemptNamed env module_name with
  | ok o =>
    rw [hatt] at h
    cases o with
    | some t0 => exact orderedCommands_ok_sorted t0 t h
    | none =>
      cases hfl : fullLoad env registry with
      | ok t0 =>
        rw [hfl] at h
        exact orderedCommands_ok_sorted t0 t h
      | importError => rw [hfl] at h; exact PyResult.noConfusion h
      | otherError e => rw [hfl] at h; exact PyResult.noConfusion h
  | importError => rw [hatt] at h; exact PyResult.noConfusion h
  | otherError e => rw [hatt] at h; exact PyResult.noConfusion h

/-! ### Concrete fixtures: modules A and B of testable property 2 -/

/-- Module A's entry for command `"x y"` (handler 0). -/
def entryXY_A : Entry := [("arguments", EntryVal.args []), ("name", EntryVal.str "x y")]

/-- Module B's entry for command `"x y"` (handler 1); the `"src"` field
distinguishes it from A's. -/
def entryXY_B : Entry :=
  [("arguments", EntryVal.args []), ("name", EntryVal.str "x y"),
    ("src", EntryVal.str "B")]

/-- Module B's entry for command `"a b"` (handler 2). -/
def entryAB_B : Entry := [("arguments", EntryVal.args []), ("name", EntryVal.str "a b")]

/-- Module A's command table: one command `"x y"`. -/
def tblA : Table := [(0, entryXY_A)]

/-- Module B's command table: commands `"x y"` and `"a b"`. -/
def tblB : Table := [(1, entryXY_B), (2, entryAB_B)]

/-- An import environment with exactly the modules `"A"` and `"B"`. -/
def envAB : String → PyResult PyModule := fun s =>
  if s = "A" then .ok ⟨some tblA⟩
  else if s = "B" then .ok ⟨some tblB⟩
  else .importError

theorem get_command_table_sorted_witness :
    get_command_table envAB ["A", "B"] none =
      .ok [(2, entryAB_B), (0, entryXY_A), (1, entryXY_B)] ∧
    List.Sorted nameLe [(2, entryAB_B), (0, entryXY_A), (1, entryXY_B)] :=
  ⟨by decide, get_command_table_sorted envAB ["A", "B"] none
    [(2, entryAB_B), (0, entryXY_A), (1, entryXY_B)] (by decide)⟩

/-- C1 counterexample: for modules A (commands `{"x y"}`, handler 0) and
B (commands `{"x y"}` handler 1, `{"a b"}` handler 2) merged in order
`[A, B]`, `get_command_table` keeps the modules' handler keys: nothing is
re-keyed by name, A's `"x y"` entry is NOT overwritten by B's, and the
iteration order of names is `["a b", "x y", "x y"]`, not the claimed
`["a b", "x y"]`. -/
theorem rekey_counterexample :
    get_command_table envAB ["A", "B"] none =
      .ok [(2, entryAB_B), (0, entryXY_A), (1, entryXY_B)] ∧
    [(2, entryAB_B), (0, entryXY_A), (1, entryXY_B)].map itemName =
      ["a b", "x y", "x y"] ∧
    (["a b", "x y", "x y"] : List String) ≠ ["a b", "x y"] ∧
    (0, entryXY_A) ∈ [(2, entryAB_B), (0, entryXY_A), (1, entryXY_B)] :=
  ⟨by decide, by decide, by decide, by decide⟩

/-- C1 amended: the merge is a dict update keyed by HANDLER (not by name),
so the table returned by `get_command_table` keeps one entry per handler;
entries from different modules with equal names all survive.  Concretely,
for A and B merged in order `[A, B]` the result holds all three entries,
stable-sorted by name: `"a b"`, then A's `"x y"`, then B's `"x y"`. -/
theorem merge_by_handler_amended (env : String → PyResult PyModule)
    (mA mB : String) (tA tB : Table)
    (hA : _get_command_table env mA = .ok tA)
    (hB : _get_command_table env mB = .ok tB) :
    fullLoad env [mA, mB] = .ok (dictUpdate (dictUpdate [] tA) tB) ∧
    get_command_table envAB ["A", "B"] none =
      .ok [(2, entryAB_B), (0, entryXY_A), (1, entryXY_B)] := by
  constructor
  · unfold fullLoad
    simp only [List.foldl_cons, List.foldl_nil, loadStep, hA, hB]
  · decide

theorem merge_by_handler_amended_witness :
    _get_command_table envAB "A" = .ok tblA ∧
    _get_command_table envAB "B" = .ok tblB ∧
    (fullLoad envAB ["A", "B"] = .ok (dictUpdate (dictUpdate [] tblA) tblB) ∧
    get_command_table envAB ["A", "B"] none =
      .ok [(2, entryAB_B), (0, entryXY_A), (1, entryXY_B)]) :=
  ⟨by decide, by decide,
    merge_by_handler_amended envAB "A" "B" tblA tblB (by decide) (by decide)⟩

/-- C5: For every explicitly named module that cannot be imported
(`ImportError`), `get_command_table` recovers locally and returns exactly
what `get_command_table(None)` returns; the failure never reaches the
caller. -/
theorem unresolved_module_falls_back (env : String → PyResult PyModule)
    (registry : List String) (m : String) (hm : m ≠ "")
    (himp : _get_command_table env m = .importError) :
    get_command_table env registry (some m) =
      get_command_table env registry none := by
  simp only [get_command_table, attemptNamed, if_neg hm, himp]

theorem unresolved_module_falls_back_witness :
    ("doesnotexist" : String) ≠ "" ∧
    _get_command_table envAB "doesnotexist" = .importError ∧
    get_command_table envAB ["A", "B"] (some "doesnotexist") =
      get_command_table envAB ["A", "B"] none :=
  ⟨by decide, by decide,
    unresolved_module_falls_back envAB ["A", "B"] "doesnotexist"
      (by decide) (by decide)⟩

theorem foldl_loadStep_importError (env : String → PyResult PyModule) :
    ∀ registry : List String,
      registry.foldl (loadStep env) .importError = .importError := by
  intro registry
  induction registry with
  | nil => rfl
  | cons r rs ih => exact ih

theorem foldl_loadStep_otherError (env : String → PyResult PyModule) (e : String) :
    ∀ registry : List String,
      registry.foldl (loadStep env) (.otherError e) = .otherError e := by
  intro registry
  induction registry with
  | nil => rfl
  | cons r rs ih => exact ih

theorem foldl_loadStep_not_ok (env : String → PyResult PyModule) :
    ∀ (registry : List String) (acc : PyResult Table) (mod : String),
      mod ∈ registry → _get_command_table env mod = .importError →
      ∀ t : Table, registry.foldl (loadStep env) acc ≠ .ok t := by
  intro registry
  induction registry with
  | nil =>
    intro acc mod hmem
    exact absurd hmem (List.not_mem_nil mod)
  | cons r rs ih =>
    intro acc mod hmem himp t
    rw [List.foldl_cons]
    rcases List.mem_cons.mp hmem with rfl | hmem'
    · cases acc with
      | ok t0 =>
        show rs.foldl (loadStep env) (loadStep env (.ok t0) mod) ≠ .ok t
        have hstep : loadStep env (.ok t0) mod = .importError := by
          unfold loadStep
          rw [himp]
        rw [hstep, foldl_loadStep_importError]
        exact fun h => PyResult.noConfusion h
      | importError =>
        rw [show loadStep env .importError mod = .importError from rfl,
          foldl_loadStep_importError]
        exact fun h => PyResult.noConfusion h
      | otherError e =>
        rw [show loadStep env (.otherError e) mod = .otherError e from rfl,
          foldl_loadStep_otherError]
        exact fun h => PyResult.noConfusion h
    · exact ih (loadStep env acc r) mod hmem' himp t

/-- C6: If any module of the registry fails to import while
`get_command_table` is on its full-load path (no module name, an empty
one, or an unresolvable one), the failure is not caught: no table is
returned and the table build aborts. -/
theorem full_load_abort (env : String → PyResult PyModule)
    (registry : List String) (module_name : Option String) (mod : String)
    (hpath : module_name = none ∨ ∃ m, module_name = some m ∧
      (m = "" ∨ _get_command_table env m = .importError))
    (hmem : mod ∈ registry)
    (himp : _get_command_table env mod = .importError) :
    ∀ t : Table, get_command_table env registry module_name ≠ .ok t := by
  have hfl : ∀ t : Table, fullLoad env registry ≠ .ok t :=
    foldl_loadStep_not_ok env registry (.ok []) mod hmem himp
  have hatt : attemptNamed env module_name = .ok none := by
    rcases hpath with rfl | ⟨m, rfl, hm⟩
    · rfl
    · by_cases hme : m = ""
      · simp [attemptNamed, hme]
      · rcases hm with rfl | himp'
        · exact absurd rfl hme
        · simp only [attemptNamed, if_neg hme, himp']
  intro t h
  unfold get_command_table at h
  rw [hatt] at h
  cases hflv : fullLoad env registry with
  | ok t0 => exact hfl t0 hflv
  | importError => rw [hflv] at h; exact PyResult.noConfusion h
  | otherError e => rw [hflv] at h; exact PyResult.noConfusion h

/-- An import environment where module `"bad"` is broken. -/
def envBad : String → PyResult PyModule := fun s =>
  if s = "A" then .ok ⟨some tblA⟩ else .importError

theorem full_load_abort_witness :
    ((none : Option String) = none ∨ ∃ m, (none : Option String) = some m ∧
      (m = "" ∨ _get_command_table envBad m = .importError)) ∧
    "bad" ∈ ["A", "bad"] ∧
    _get_command_table envBad "bad" = .importError ∧
    ∀ t : Table, get_command_table envBad ["A", "bad"] none ≠ .ok t :=
  ⟨Or.inl rfl, by decide, by decide,
    full_load_abort envBad ["A", "bad"] none "bad" (Or.inl rfl)
      (by decide) (by decide)⟩

/-- C7: For every module name that resolves to an importable module with a
command table whose entries are all named, `get_command_table` returns
exactly that module's table stable-sorted by name — for EVERY registry and
regardless of what the environment holds at other names, so no other
discovered module is imported and the merge is bypassed. -/
theorem single_module_bypass (env : String → PyResult PyModule)
    (registry : List String) (m : String) (mod : PyModule) (t : Table)
    (hm : m ≠ "") (henv : env m = .ok mod) (htbl : mod.command_table = some t)
    (hnames : t.all hasStrName = true) :
    get_command_table env registry (some m) = .ok (t.insertionSort nameLe) := by
  have hres : _get_command_table env m = .ok t := by
    simp only [_get_command_table, henv, htbl]
  simp only [get_command_table, attemptNamed, if_neg hm, hres, orderedCommands,
    if_pos hnames]

theorem single_module_bypass_witness :
    ("B" : String) ≠ "" ∧
    envAB "B" = .ok ⟨some tblB⟩ ∧
    (PyModule.mk (some tblB)).command_table = some tblB ∧
    tblB.all hasStrName = true ∧
    get_command_table envAB ["A", "B"] (some "B") =
      .ok (tblB.insertionSort nameLe) :=
  ⟨by decide, by decide, rfl, by decide,
    single_module_bypass envAB ["A", "B"] "B" (PyModule.mk (some tblB)) tblB
      (by decide) (by decide) rfl (by decide)⟩

/-- C10: For every explicitly named module whose resolution raises anything
other than `ImportError` — e.g. the module imports but has no
`command_table` attribute (`AttributeError`) — `get_command_table`
propagates the exception instead of falling back to the full load. -/
theorem named_module_error_propagates (env : String → PyResult PyModule)
    (registry : List String) (m : String) (e : String) (hm : m ≠ "")
    (herr : _get_command_table env m = .otherError e) :
    get_command_table env registry (some m) = .otherError e := by
  simp only [get_command_table, attemptNamed, if_neg hm, herr]

/-- An import environment where module `"noattr"` imports but exposes no
`command_table`. -/
def envNoAttr : String → PyResult PyModule := fun s =>
  if s = "noattr" then .ok ⟨none⟩
  else if s = "A" then .ok ⟨some tblA⟩
  else .importError

theorem named_module_error_propagates_witness :
    ("noattr" : String) ≠ "" ∧
    _get_command_table envNoAttr "noattr" = .otherError "AttributeError" ∧
    get_command_table envNoAttr ["A"] (some "noattr") =
      .otherError "AttributeError" :=
  ⟨by decide, by decide,
    named_module_error_propagates envNoAttr ["A"] "noattr" "AttributeError"
      (by decide) (by decide)⟩
